import Mathlib

/-!
Verification of the HiCAL CALEngine core against its specification.

Part 1 embeds the scalability controller `BMI_para_scal`
(src/CALEngine/src/bmi_para_scal.cc): the constructor and
`record_judgment_batch`, including the tail-to-head queue-removal scan,
the `R`/`T`-doubling bookkeeping, the refill subsampling, and the batch
growth rule.  Machine integers are modelled as `Nat` (all quantities are
nonnegative counters in the source; no overflow is exercised by the
claims).  External collaborators that are not under src/ are modelled
from the spec and marked as such: the labeled cache insertion
(`add_to_training_cache`, spec §4.4), the key→id resolution
(`Dataset::get_index`, spec §6; judgments here carry the already
resolved unit id), the paragraph→document map
(`ParagraphDataset::translate_index`, spec §6, a total function taken as
a parameter `tr`), and `perform_training_iteration`, whose candidate
batch is taken as an oracle argument (`batch`); `std::shuffle` is
modelled by letting that argument range over arbitrary orders of the
candidate list.

Part 2 embeds the sofia-ml learner step functions
(src/CALEngine/src/sofiaml/sofia-ml-methods.cc) over `ℝ` (the source
uses 32-bit floats; the claims under verification are about branch
structure and exact coefficients, which the real-number model reflects
faithfully).  The weight vector `SfWeightVector`
(sf-weight-vector.cc, not under src/) is modelled from the spec §4.2 at
the logical level `w_i = s · raw_i`: a dense list of reals with
`scale_by`, `add_vector` and inner products; the lazy scale factor and
the underflow flush preserve this logical value by the stated invariant of the spec.
-/

/-! ## Part 1: the scalability controller (bmi_para_scal.cc) -/

/-- State of `BMI_para_scal`: the scalability integers `N`, `T`, `R`, `B`
and `judgments_per_iteration`, the judgment queue of paragraph unit ids
(index 0 is the head; `push_back` appends at the tail), and the labeled
cache mapping unit id to label.  The labeled cache merges the base
base-class `judgments` map and training cache into the single mapping the
spec §3 describes. -/
structure ScalState where
  N : ℕ
  T : ℕ
  R : ℕ
  B : ℕ
  judgments_per_iteration : ℕ
  judgment_queue : List ℕ
  judgments : ℕ → Option ℤ

/-- Map assignment `cache[id] = v` (insert or overwrite), as used both by
the labeled-cache insertion and by the `-2` marking in the refill. -/
def cacheInsert (c : ℕ → Option ℤ) (id : ℕ) (v : ℤ) : ℕ → Option ℤ :=
  fun j => if j = id then some v else c j

/-- Modelled from the spec: `add_to_training_cache` (base class `BMI`,
not under src/) inserts the resolved unit id with its label into the
labeled cache (spec §4.4, insert into the labeled cache). -/
def add_to_training_cache (c : ℕ → Option ℤ) (id : ℕ) (label : ℤ) : ℕ → Option ℤ :=
  cacheInsert c id label

/-- The queue scan of `record_judgment_batch`: walk the list from the
tail (highest index) towards the head and erase the first element
satisfying `p`, mirroring the `for(i = size-1; i >= 0; i--) { if ...
erase; break; }` loop.  Returns the new list and whether a removal
happened. -/
def eraseLastMatch (p : ℕ → Bool) : List ℕ → List ℕ × Bool
  | [] => ([], false)
  | x :: xs =>
    let r := eraseLastMatch p xs
    if r.2 then (x :: r.1, true)
    else if p x then (xs, true)
    else (x :: xs, false)

/-- Batch growth `B = B + ceil(B/10.0)`; over naturals
`⌈b/10⌉ = (b + 9) / 10`. -/
def growB (b : ℕ) : ℕ := b + (b + 9) / 10

/-- Ceiling division `⌈a/b⌉ = (a + b - 1) / b` over naturals, modelling
`ceil(B*N/(float)T)` (exact for the integer ranges the controller
uses). -/
def ceilDiv (a b : ℕ) : ℕ := (a + b - 1) / b

/-- One iteration of the judgment fold in `record_judgment_batch`
(bmi_para_scal.cc lines 23-33): resolve the key to a unit id (the id is
already resolved here; `get_index` is external), insert it into the
labeled cache, scan the queue from tail to head for the first paragraph
whose parent document (`tr`) equals the id, erase it, and if one was
erased and the label is positive increment `R`. -/
def foldJudgment (tr : ℕ → ℕ) (s : ScalState) (j : ℕ × ℤ) : ScalState :=
  let cache' := add_to_training_cache s.judgments j.1 j.2
  let r := eraseLastMatch (fun pid => tr pid == j.1) s.judgment_queue
  { s with judgments := cache',
           judgment_queue := r.1,
           R := if r.2 ∧ 0 < j.2 then s.R + 1 else s.R }

/-- The refill block of `record_judgment_batch` (bmi_para_scal.cc lines
35-57), run when the queue is empty after folding all judgments: double
`T` if `R >= T`, remember `judgments_per_iteration = B`, obtain the
candidate batch from `perform_training_iteration` (here the oracle
argument `batch`, already in post-shuffle order), enqueue the first
`n = ceil(B*N/T)` of it, mark every remaining candidate with the `-2`
sentinel in the labeled cache, and grow `B`. -/
def refill (s : ScalState) (batch : List ℕ) : ScalState :=
  let T' := if s.T ≤ s.R then 2 * s.T else s.T
  let n := ceilDiv (s.B * s.N) T'
  { s with T := T',
           judgments_per_iteration := s.B,
           judgment_queue := s.judgment_queue ++ batch.take n,
           judgments := (batch.drop n).foldl (fun c b => cacheInsert c b (-2)) s.judgments,
           B := growB s.B }

/-- Function `BMI_para_scal::record_judgment_batch`: fold every judgment of the
batch in input order, then, if the queue has become empty, run the
refill. -/
def recordJudgmentBatch (tr : ℕ → ℕ) (js : List (ℕ × ℤ)) (batch : List ℕ)
    (s : ScalState) : ScalState :=
  let s1 := js.foldl (foldJudgment tr) s
  if s1.judgment_queue = [] then refill s1 batch else s1

/-- The `BMI_para_scal` constructor (bmi_para_scal.cc lines 6-19):
`T = N`, `R = 0`, `judgments_per_iteration = B`, one initial iteration
(whose queue contents `q0` are an oracle, `perform_iteration` being
external), then `B = B + ceil(B/10.0)`. -/
def mkInit (N B0 : ℕ) (q0 : List ℕ) : ScalState :=
  { N := N, T := N, R := 0, B := growB B0,
    judgments_per_iteration := B0,
    judgment_queue := q0,
    judgments := fun _ => none }

/-- A sequence of `record_judgment_batch` calls, each with its judgment
list and its refill-batch oracle. -/
def runCalls (tr : ℕ → ℕ) (calls : List (List (ℕ × ℤ) × List ℕ))
    (s : ScalState) : ScalState :=
  calls.foldl (fun st c => recordJudgmentBatch tr c.1 c.2 st) s

/-! ## Part 2: the sofia-ml learner (sofia-ml-methods.cc) -/

/-- Function `MIN_SCALING_FACTOR` (sofia-ml-methods.cc line 37): the floor
protecting regularization and projection against underflow. -/
noncomputable def MIN_SCALING_FACTOR : ℝ := 1 / 10 ^ 7

/-- A sparse example `SfSparseVector`: strictly ascending unique feature
ids paired with values, plus the label `y` (spec §3; the class itself is
external to src/, but only its accessors `FeatureAt`/`ValueAt`/`GetY`/
`GetSquaredNorm` are used by the embedded code). -/
structure SfSparseVector where
  features : List (ℕ × ℝ)
  y : ℝ

/-- Modelled from the spec: `GetSquaredNorm` returns the cached squared
norm, whose invariant is `Σ v²` (spec §3). -/
noncomputable def SfSparseVector.squaredNorm (x : SfSparseVector) : ℝ :=
  (x.features.map (fun p => p.2 * p.2)).sum

/-- The weight vector, modelled from the spec §4.2 at the logical level:
a dense list of reals, entry `i` read as `getW w i`; the lazy scale
factor `s` and the underflow flush of the external `SfWeightVector`
preserve the logical value `w_i = s · raw_i` by the stated invariant of the spec,
so all operations below act on the logical vector directly. -/
abbrev W : Type := List ℝ

/-- Logical weight at coordinate `i` (0 beyond the allocated length). -/
def getW (w : W) (i : ℕ) : ℝ := List.getD w i 0

/-- Grow the dense array to length at least `n` (spec §3, growable to
the max seen id). -/
def padTo (w : W) (n : ℕ) : W := w ++ List.replicate (n - w.length) 0

/-- Write coordinate `i`, growing the array as needed. -/
def setW (w : W) (i : ℕ) (v : ℝ) : W := List.set (padTo w (i + 1)) i v

/-- Modelled from the spec: `SfWeightVector::ScaleBy(α)` multiplies the
logical vector by `α` (spec §4.2: `s ← α·s`). -/
def scaleBy (alpha : ℝ) (w : W) : W := List.map (fun v => alpha * v) w

/-- Modelled from the spec: `SfWeightVector::AddVector(x, c)` adds
`c · x_i` at every feature `i` of `x` (spec §4.2). -/
def addFeatures (w : W) (fs : List (ℕ × ℝ)) (c : ℝ) : W :=
  fs.foldl (fun w' p => setW w' p.1 (getW w' p.1 + c * p.2)) w

/-- Function `w->AddVector(x, c)` on the logical vector. -/
def addVector (w : W) (x : SfSparseVector) (c : ℝ) : W := addFeatures w x.features c

/-- Modelled from the spec: `InnerProduct` `w·x = Σ_{i∈x} w_i · x_i`
(spec §4.2). -/
def innerProduct (w : W) (x : SfSparseVector) : ℝ :=
  (x.features.map (fun p => getW w p.1 * p.2)).sum

/-- Modelled from the spec: `InnerProductOnDifference(a, b)` computes
`w·a − w·b` (spec §4.1). -/
def innerProductOnDifference (w : W) (a b : SfSparseVector) : ℝ :=
  innerProduct w a - innerProduct w b

/-- The value of `x` at feature `i` (0 when `i` is not a feature of
`x`), used to state the pointwise effect of `AddVector`. -/
def valAt (x : SfSparseVector) (i : ℕ) : ℝ :=
  (Option.map Prod.snd (x.features.find? (fun p => p.1 == i))).getD 0

/-- Function `L2Regularize` (sofia-ml-methods.cc lines 637-644): scale by
`α = 1 − η·λ` when that is above `MIN_SCALING_FACTOR`, else by the
floor. -/
noncomputable def L2Regularize (eta lambda : ℝ) (w : W) : W :=
  let scaling_factor := 1 - eta * lambda
  if scaling_factor > MIN_SCALING_FACTOR then scaleBy (1 - eta * lambda) w
  else scaleBy MIN_SCALING_FACTOR w

/-- Function `L2RegularizeSeveralSteps` (sofia-ml-methods.cc lines 646-657):
compares `α^k` against the floor but, when above it, still scales by a
single `α`.  `effective_steps` is a step count, modelled as `ℕ`. -/
noncomputable def L2RegularizeSeveralSteps (eta lambda : ℝ) (effective_steps : ℕ) (w : W) : W :=
  let scaling_factor := (1 - eta * lambda) ^ effective_steps
  if scaling_factor > MIN_SCALING_FACTOR then scaleBy (1 - eta * lambda) w
  else scaleBy MIN_SCALING_FACTOR w

/-- Squared norm of the logical weight vector. -/
def sqNormW (w : W) : ℝ := (List.map (fun v => v * v) w).sum

/-- Function `PegasosProjection` (sofia-ml-methods.cc lines 659-664): scale by
`p = 1/√(λ·‖w‖²)` when `p < 1`. -/
noncomputable def PegasosProjection (lambda : ℝ) (w : W) : W :=
  let projection_val := 1 / Real.sqrt (lambda * sqNormW w)
  if projection_val < 1 then scaleBy projection_val w else w

/-- Function `GetEta` (sofia-ml-methods.cc lines 65-82).  The eta-type enum is
modelled from the spec by its underlying integer codes
(`BASIC_ETA = 0`, `PEGASOS_ETA = 1`, `CONSTANT = 2`; the header is not
under src/); `exit(0)` on an unknown code is modelled as
`Except.error`. -/
noncomputable def GetEta (eta_type : ℤ) (lambda : ℝ) (i : ℕ) : Except Unit ℝ :=
  if eta_type = 0 then Except.ok (10 / (i + 10))
  else if eta_type = 1 then Except.ok (1 / (lambda * i))
  else if eta_type = 2 then Except.ok 0.02
  else Except.error ()

/-- The pairwise label `y = sign(y_a − y_b)` computed by the rank
steps. -/
noncomputable def pairY (a b : SfSparseVector) : ℝ :=
  if b.y < a.y then 1 else if a.y < b.y then -1 else 0

/-- Function `SinglePegasosStep` (sofia-ml-methods.cc lines 319-333). -/
noncomputable def SinglePegasosStep (x : SfSparseVector) (eta lambda : ℝ) (w : W) : Bool × W :=
  let p := x.y * innerProduct w x
  let w1 := L2Regularize eta lambda w
  let w2 := if p < 1 ∧ x.y ≠ 0 then addVector w1 x (eta * x.y) else w1
  (decide (p < 1 ∧ x.y ≠ 0), PegasosProjection lambda w2)

/-- Function `SingleRommaStep` (sofia-ml-methods.cc lines 335-359); the
denominator floor is `10⁻¹⁰`. -/
noncomputable def SingleRommaStep (x : SfSparseVector) (w : W) : Bool × W :=
  let wx := innerProduct w x
  let p := x.y * wx
  let xx := x.squaredNorm
  let ww := sqNormW w
  let c := (xx * ww - p + 1 / 10 ^ 10) / (xx * ww - wx * wx + 1 / 10 ^ 10)
  let d := (ww * (x.y - wx) + 1 / 10 ^ 10) / (xx * ww - wx * wx + 1 / 10 ^ 10)
  let w' := if p < 1 ∧ x.y ≠ 0 then (if 0 ≤ c then addVector (scaleBy c w) x d else w) else w
  (decide (p < 1 ∧ x.y ≠ 0), w')

/-- Function `SingleSgdSvmStep` (sofia-ml-methods.cc lines 361-374). -/
noncomputable def SingleSgdSvmStep (x : SfSparseVector) (eta lambda : ℝ) (w : W) : Bool × W :=
  let p := x.y * innerProduct w x
  let w1 := L2Regularize eta lambda w
  let w2 := if p < 1 ∧ x.y ≠ 0 then addVector w1 x (eta * x.y) else w1
  (decide (p < 1 ∧ x.y ≠ 0), w2)

/-- Function `SingleMarginPerceptronStep` (sofia-ml-methods.cc lines 376-386). -/
noncomputable def SingleMarginPerceptronStep (x : SfSparseVector) (eta c : ℝ) (w : W) :
    Bool × W :=
  if x.y * innerProduct w x ≤ c then (true, addVector w x (eta * x.y)) else (false, w)

/-- Function `SinglePegasosLogRegStep` (sofia-ml-methods.cc lines 388-398). -/
noncomputable def SinglePegasosLogRegStep (x : SfSparseVector) (eta lambda : ℝ) (w : W) :
    Bool × W :=
  let loss := x.y / (1 + Real.exp (x.y * innerProduct w x))
  (true, PegasosProjection lambda (addVector (L2Regularize eta lambda w) x (eta * loss)))

/-- Function `SingleLogRegStep` (sofia-ml-methods.cc lines 400-409). -/
noncomputable def SingleLogRegStep (x : SfSparseVector) (eta lambda : ℝ) (w : W) : Bool × W :=
  let loss := x.y / (1 + Real.exp (x.y * innerProduct w x))
  (true, addVector (L2Regularize eta lambda w) x (eta * loss))

/-- Function `SingleLeastMeanSquaresStep` (sofia-ml-methods.cc lines 411-420). -/
noncomputable def SingleLeastMeanSquaresStep (x : SfSparseVector) (eta lambda : ℝ) (w : W) :
    Bool × W :=
  let loss := x.y - innerProduct w x
  (true, PegasosProjection lambda (addVector (L2Regularize eta lambda w) x (eta * loss)))

/-- Function `SinglePassiveAggressiveStep` (sofia-ml-methods.cc lines 422-438):
with `p = 1 − y·(w·x)`, when `p > 0` and `y ≠ 0` add
`min(p/‖x‖², max_step)·y·x`, then project if `λ > 0`; the function
returns `p < 1 ∧ y ≠ 0` (faithful to line 437). -/
noncomputable def SinglePassiveAggressiveStep (x : SfSparseVector) (lambda max_step : ℝ)
    (w : W) : Bool × W :=
  let p := 1 - x.y * innerProduct w x
  let w1 := if 0 < p ∧ x.y ≠ 0
    then addVector w x (min (p / x.squaredNorm) max_step * x.y) else w
  let w2 := if 0 < lambda then PegasosProjection lambda w1 else w1
  (decide (p < 1 ∧ x.y ≠ 0), w2)

/-- The three-way sorted merge computing the squared norm of `(a − b)`
without materializing it (`SinglePassiveAggressiveRankStep`,
sofia-ml-methods.cc lines 451-468). -/
def diffSquaredNorm : List (ℕ × ℝ) → List (ℕ × ℝ) → ℝ
  | [], bs => (bs.map (fun p => p.2 * p.2)).sum
  | a :: as, [] => a.2 * a.2 + diffSquaredNorm as []
  | a :: as, b :: bs =>
    if a.1 < b.1 then a.2 * a.2 + diffSquaredNorm as (b :: bs)
    else if b.1 < a.1 then b.2 * b.2 + diffSquaredNorm (a :: as) bs
    else (a.2 - b.2) * (a.2 - b.2) + diffSquaredNorm as bs
  termination_by as bs => as.length + bs.length

/-- Modelled from the spec: the `SfSparseVector(a, b, y)` difference
constructor (sf-sparse-vector.cc, not under src/) materializes `a − b`
by a sorted merge of the two feature lists (spec §4.3, the difference
`(a−b)` is materialized as a sparse vector). -/
def mergeDiff : List (ℕ × ℝ) → List (ℕ × ℝ) → List (ℕ × ℝ)
  | [], bs => bs.map (fun p => (p.1, -p.2))
  | a :: as, [] => a :: mergeDiff as []
  | a :: as, b :: bs =>
    if a.1 < b.1 then a :: mergeDiff as (b :: bs)
    else if b.1 < a.1 then (b.1, -b.2) :: mergeDiff (a :: as) bs
    else (a.1, a.2 - b.2) :: mergeDiff as bs
  termination_by as bs => as.length + bs.length

/-- The materialized difference example used by `SingleRommaRankStep`. -/
def sparseDifference (a b : SfSparseVector) (y : ℝ) : SfSparseVector :=
  ⟨mergeDiff a.features b.features, y⟩

/-- Function `SinglePassiveAggressiveRankStep` (sofia-ml-methods.cc lines
440-479); its return value is `p > 0 ∧ y ≠ 0` (line 478). -/
noncomputable def SinglePassiveAggressiveRankStep (a b : SfSparseVector)
    (lambda max_step : ℝ) (w : W) : Bool × W :=
  let y := pairY a b
  let p := 1 - y * innerProductOnDifference w a b
  let w1 := if 0 < p ∧ y ≠ 0 then
      let squared_norm := diffSquaredNorm a.features b.features
      let step := min (p / squared_norm) max_step
      addVector (addVector w a (step * y)) b (step * y * (-1))
    else w
  let w2 := if 0 < lambda then PegasosProjection lambda w1 else w1
  (decide (0 < p ∧ y ≠ 0), w2)

/-- Function `SinglePegasosRankStep` (sofia-ml-methods.cc lines 481-500). -/
noncomputable def SinglePegasosRankStep (a b : SfSparseVector) (eta lambda : ℝ) (w : W) :
    Bool × W :=
  let y := pairY a b
  let p := y * innerProductOnDifference w a b
  let w1 := L2Regularize eta lambda w
  let w2 := if p < 1 ∧ y ≠ 0 then addVector (addVector w1 a (eta * y)) b (-1 * eta * y) else w1
  (decide (p < 1 ∧ y ≠ 0), PegasosProjection lambda w2)

/-- Function `SingleSgdSvmRankStep` (sofia-ml-methods.cc lines 502-520). -/
noncomputable def SingleSgdSvmRankStep (a b : SfSparseVector) (eta lambda : ℝ) (w : W) :
    Bool × W :=
  let y := pairY a b
  let p := y * innerProductOnDifference w a b
  let w1 := L2Regularize eta lambda w
  let w2 := if p < 1 ∧ y ≠ 0 then addVector (addVector w1 a (eta * y)) b (-1 * eta * y) else w1
  (decide (p < 1 ∧ y ≠ 0), w2)

/-- Function `SingleLeastMeanSquaresRankStep` (sofia-ml-methods.cc lines
522-535); note `y = y_a − y_b` here, not its sign. -/
noncomputable def SingleLeastMeanSquaresRankStep (a b : SfSparseVector) (eta lambda : ℝ)
    (w : W) : Bool × W :=
  let y := a.y - b.y
  let loss := y - innerProductOnDifference w a b
  (true, PegasosProjection lambda
    (addVector (addVector (L2Regularize eta lambda w) a (eta * loss)) b (-1 * eta * loss)))

/-- Function `SingleRommaRankStep` (sofia-ml-methods.cc lines 537-550). -/
noncomputable def SingleRommaRankStep (a b : SfSparseVector) (w : W) : Bool × W :=
  let y := pairY a b
  if y ≠ 0 then SingleRommaStep (sparseDifference a b y) w else (false, w)

/-- Function `SinglePegasosLogRegRankStep` (sofia-ml-methods.cc lines 552-573);
the `INF` defaults of `y_a`/`y_b` are modelled as `Option.none`. -/
noncomputable def SinglePegasosLogRegRankStep (a b : SfSparseVector) (eta lambda : ℝ)
    (w : W) (y_a y_b : Option ℝ) : Bool × W :=
  let ya := y_a.getD a.y
  let yb := y_b.getD b.y
  let y : ℝ := if yb < ya then 1 else if ya < yb then -1 else 0
  let loss := y / (1 + Real.exp (y * innerProductOnDifference w a b))
  (true, PegasosProjection lambda
    (addVector (addVector (L2Regularize eta lambda w) a (eta * loss)) b (-1 * eta * loss)))

/-- Function `SingleLogRegRankStep` (sofia-ml-methods.cc lines 575-588). -/
noncomputable def SingleLogRegRankStep (a b : SfSparseVector) (eta lambda : ℝ) (w : W) :
    Bool × W :=
  let y := pairY a b
  let loss := y / (1 + Real.exp (y * innerProductOnDifference w a b))
  (true, addVector (addVector (L2Regularize eta lambda w) a (eta * loss)) b (-1 * eta * loss))

/-- Function `SingleMarginPerceptronRankStep` (sofia-ml-methods.cc lines
590-604): when `y·(w·(a−b)) ≤ c`, `AddVector(a, η)` and
`AddVector(b, −η)` — the coefficient is `η`, not `η·y`. -/
noncomputable def SingleMarginPerceptronRankStep (a b : SfSparseVector) (eta c : ℝ) (w : W) :
    Bool × W :=
  let y := pairY a b
  if y * innerProductOnDifference w a b ≤ c
  then (true, addVector (addVector w a eta) b (-1 * eta))
  else (false, w)

/-- Function `OneLearnerStep` (sofia-ml-methods.cc lines 252-280).  The
learner-type enum is modelled from the spec by its underlying integer
codes in the order of the dispatch (`PEGASOS = 0`,
`MARGIN_PERCEPTRON = 1`, `PASSIVE_AGGRESSIVE = 2`,
`LOGREG_PEGASOS = 3`, `LOGREG = 4`, `LMS_REGRESSION = 5`,
`SGD_SVM = 6`, `ROMMA = 7`; the header is not under src/); `exit(0)` on
an unknown code is modelled as `Except.error`, produced before any step
function is invoked, so no updated weight vector exists. -/
noncomputable def OneLearnerStep (learner_type : ℤ) (x : SfSparseVector) (eta c lambda : ℝ)
    (w : W) : Except Unit (Bool × W) :=
  if learner_type = 0 then Except.ok (SinglePegasosStep x eta lambda w)
  else if learner_type = 1 then Except.ok (SingleMarginPerceptronStep x eta c w)
  else if learner_type = 2 then Except.ok (SinglePassiveAggressiveStep x lambda c w)
  else if learner_type = 3 then Except.ok (SinglePegasosLogRegStep x eta lambda w)
  else if learner_type = 4 then Except.ok (SingleLogRegStep x eta lambda w)
  else if learner_type = 5 then Except.ok (SingleLeastMeanSquaresStep x eta lambda w)
  else if learner_type = 6 then Except.ok (SingleSgdSvmStep x eta lambda w)
  else if learner_type = 7 then Except.ok (SingleRommaStep x w)
  else Except.error ()

/-- Function `OneLearnerRankStep` (sofia-ml-methods.cc lines 282-313). -/
noncomputable def OneLearnerRankStep (learner_type : ℤ) (a b : SfSparseVector)
    (eta c lambda : ℝ) (w : W) (y_a y_b : Option ℝ) : Except Unit (Bool × W) :=
  if learner_type = 0 then Except.ok (SinglePegasosRankStep a b eta lambda w)
  else if learner_type = 1 then Except.ok (SingleMarginPerceptronRankStep a b eta c w)
  else if learner_type = 2 then Except.ok (SinglePassiveAggressiveRankStep a b lambda c w)
  else if learner_type = 3 then Except.ok (SinglePegasosLogRegRankStep a b eta lambda w y_a y_b)
  else if learner_type = 4 then Except.ok (SingleLogRegRankStep a b eta lambda w)
  else if learner_type = 5 then Except.ok (SingleLeastMeanSquaresRankStep a b eta lambda w)
  else if learner_type = 6 then Except.ok (SingleSgdSvmRankStep a b eta lambda w)
  else if learner_type = 7 then Except.ok (SingleRommaRankStep a b w)
  else Except.error ()

/-- Default example used to totalize list indexing (the source
guarantees in-range indices via `RandInt`). -/
def dummyVec : SfSparseVector := ⟨[], 0⟩

/-- The positives bucket built by `BalancedStochasticOuterLoop` and
`StochasticClassificationAndRocLoop` (sofia-ml-methods.cc lines
112-119 and 167-174): indices `i` with `VectorAt(i).GetY() > 0.0`. -/
noncomputable def positivesOf (D : List SfSparseVector) : List ℕ :=
  (List.range D.length).filter (fun i => decide (0 < (D.getD i dummyVec).y))

/-- The negatives bucket of the same loops: every other index,
including examples with `y = 0`. -/
noncomputable def negativesOf (D : List SfSparseVector) : List ℕ :=
  (List.range D.length).filter (fun i => !decide (0 < (D.getD i dummyVec).y))

/-- Function `BalancedStochasticOuterLoop` (sofia-ml-methods.cc lines 103-134):
bucket the training set by `GetY() > 0.0`, then per iteration sample
one positive and one negative index (the thread-local RNG draws are the
oracles `posChoice`/`negChoice`) and take one `OneLearnerStep` on
each. -/
noncomputable def BalancedStochasticOuterLoop (learner_type eta_type : ℤ) (lambda c : ℝ)
    (num_iters : ℕ) (D : List SfSparseVector) (posChoice negChoice : ℕ → ℕ) (w : W) :
    Except Unit W :=
  let positives := positivesOf D
  let negatives := negativesOf D
  (List.range num_iters).foldlM (fun w i => do
    let eta ← GetEta eta_type lambda (i + 1)
    let pos_x := D.getD (positives.getD (posChoice (i + 1)) 0) dummyVec
    let r1 ← OneLearnerStep learner_type pos_x eta c lambda w
    let neg_x := D.getD (negatives.getD (negChoice (i + 1)) 0) dummyVec
    let r2 ← OneLearnerStep learner_type neg_x eta c lambda r1.2
    pure r2.2) w

/-- Function `StochasticClassificationAndRocLoop` (sofia-ml-methods.cc lines
157-195): same bucketing; per iteration, with probability
`rank_step_probability` (the RNG draw is the oracle `coin`) take a
rank step on a sampled positive/negative pair, else a classification
step on a uniformly sampled example. -/
noncomputable def StochasticClassificationAndRocLoop (learner_type eta_type : ℤ)
    (lambda c rank_step_probability : ℝ) (num_iters : ℕ) (D : List SfSparseVector)
    (coin : ℕ → ℝ) (choiceA choiceB : ℕ → ℕ) (w : W) : Except Unit W :=
  let positives := positivesOf D
  let negatives := negativesOf D
  (List.range num_iters).foldlM (fun w i => do
    let eta ← GetEta eta_type lambda (i + 1)
    if coin (i + 1) < rank_step_probability then
      let pos_x := D.getD (positives.getD (choiceA (i + 1)) 0) dummyVec
      let neg_x := D.getD (negatives.getD (choiceB (i + 1)) 0) dummyVec
      let r ← OneLearnerRankStep learner_type pos_x neg_x eta c lambda w none none
      pure r.2
    else
      let x := D.getD (choiceA (i + 1) % D.length) dummyVec
      let r ← OneLearnerStep learner_type x eta c lambda w
      pure r.2) w

theorem eraseLastMatch_snd (p : ℕ → Bool) : ∀ l : List ℕ, (eraseLastMatch p l).2 = l.any p := by
  intro l
  induction l with
  | nil => rfl
  | cons x xs ih =>
    simp only [eraseLastMatch, List.any_cons]
    by_cases h2 : (eraseLastMatch p xs).2
    · simp [h2, ← ih]
    · simp only [Bool.not_eq_true] at h2
      rw [← ih, h2]
      by_cases hp : p x <;> simp [hp, h2]

theorem eraseLastMatch_of_not_found (p : ℕ → Bool) :
    ∀ l : List ℕ, (eraseLastMatch p l).2 = false → (eraseLastMatch p l).1 = l := by
  intro l
  induction l with
  | nil => intro _; rfl
  | cons x xs ih =>
    intro h
    simp only [eraseLastMatch] at h ⊢
    by_cases h2 : (eraseLastMatch p xs).2
    · simp [h2] at h
    · simp only [Bool.not_eq_true] at h2
      by_cases hp : p x
      · simp [h2, hp] at h
      · simp [h2, hp]

theorem eraseLastMatch_found_length (p : ℕ → Bool) :
    ∀ l : List ℕ, (eraseLastMatch p l).2 = true →
      (eraseLastMatch p l).1.length + 1 = l.length := by
  intro l
  induction l with
  | nil => intro h; simp [eraseLastMatch] at h
  | cons x xs ih =>
    intro h
    simp only [eraseLastMatch] at h ⊢
    by_cases h2 : (eraseLastMatch p xs).2
    · simp only [h2, if_pos] at h ⊢
      simp only [List.length_cons]
      rw [← ih h2]
    · simp only [Bool.not_eq_true] at h2
      by_cases hp : p x
      · simp [h2, hp]
      · simp [h2, hp] at h

theorem eraseLastMatch_at_last_index (p : ℕ → Bool) :
    ∀ (l : List ℕ) (i : ℕ) (h : i < l.length),
      p (l.get ⟨i, h⟩) = true →
      (∀ (j : ℕ) (hj : j < l.length), i < j → p (l.get ⟨j, hj⟩) = false) →
      eraseLastMatch p l = (l.take i ++ l.drop (i + 1), true) := by
  intro l
  induction l with
  | nil => intro i h; simp at h
  | cons x xs ih =>
    intro i h hp hlast
    match i with
    | 0 =>
      have hxs : xs.any p = false := by
        by_contra hany
        rw [Bool.not_eq_false, List.any_eq_true] at hany
        obtain ⟨a, ha, hpa⟩ := hany
        obtain ⟨⟨k, hk⟩, rfl⟩ := List.mem_iff_get.mp ha
        have hj : k + 1 < (x :: xs).length := by simpa using Nat.succ_lt_succ hk
        have := hlast (k + 1) hj (Nat.succ_pos k)
        rw [List.get_cons_succ] at this
        rw [this] at hpa
        exact Bool.false_ne_true hpa
      have h2 : (eraseLastMatch p xs).2 = false := by rw [eraseLastMatch_snd]; exact hxs
      have hpx : p x = true := by simpa using hp
      simp only [eraseLastMatch, h2, hpx]
      simp
    | k + 1 =>
      have hk : k < xs.length := by simpa using h
      have hpk : p (xs.get ⟨k, hk⟩) = true := by
        have : (x :: xs).get ⟨k + 1, h⟩ = xs.get ⟨k, hk⟩ := List.get_cons_succ
        rw [this] at hp; exact hp
      have hlast' : ∀ (j : ℕ) (hj : j < xs.length), k < j → p (xs.get ⟨j, hj⟩) = false := by
        intro j hj hkj
        have hj' : j + 1 < (x :: xs).length := by simpa using Nat.succ_lt_succ hj
        have := hlast (j + 1) hj' (Nat.succ_lt_succ hkj)
        rw [List.get_cons_succ] at this
        exact this
      have ihx := ih k hk hpk hlast'
      have h2 : (eraseLastMatch p xs).2 = true := by rw [ihx]
      simp only [eraseLastMatch, h2, if_pos]
      rw [show (eraseLastMatch p xs).1 = xs.take k ++ xs.drop (k + 1) from by rw [ihx]]
      simp [List.take_succ_cons, List.drop_succ_cons]

theorem foldl_foldJudgment_T (tr : ℕ → ℕ) :
    ∀ (js : List (ℕ × ℤ)) (s : ScalState), (js.foldl (foldJudgment tr) s).T = s.T := by
  intro js
  induction js with
  | nil => intro s; rfl
  | cons j js ih => intro s; rw [List.foldl_cons, ih]; rfl

theorem foldl_foldJudgment_N (tr : ℕ → ℕ) :
    ∀ (js : List (ℕ × ℤ)) (s : ScalState), (js.foldl (foldJudgment tr) s).N = s.N := by
  intro js
  induction js with
  | nil => intro s; rfl
  | cons j js ih => intro s; rw [List.foldl_cons, ih]; rfl

theorem foldl_foldJudgment_B (tr : ℕ → ℕ) :
    ∀ (js : List (ℕ × ℤ)) (s : ScalState), (js.foldl (foldJudgment tr) s).B = s.B := by
  intro js
  induction js with
  | nil => intro s; rfl
  | cons j js ih => intro s; rw [List.foldl_cons, ih]; rfl

theorem refill_T (s : ScalState) (batch : List ℕ) :
    (refill s batch).T = if s.T ≤ s.R then 2 * s.T else s.T := rfl

theorem record_N (tr : ℕ → ℕ) (js : List (ℕ × ℤ)) (batch : List ℕ) (s : ScalState) :
    (recordJudgmentBatch tr js batch s).N = s.N := by
  simp only [recordJudgmentBatch]
  split
  · show (refill _ _).N = s.N
    show (js.foldl (foldJudgment tr) s).N = s.N
    exact foldl_foldJudgment_N tr js s
  · exact foldl_foldJudgment_N tr js s

theorem record_T_or (tr : ℕ → ℕ) (js : List (ℕ × ℤ)) (batch : List ℕ) (s : ScalState) :
    (recordJudgmentBatch tr js batch s).T = s.T ∨
      (recordJudgmentBatch tr js batch s).T = 2 * s.T := by
  simp only [recordJudgmentBatch]
  split
  · rw [refill_T, foldl_foldJudgment_T]
    split
    · right; rfl
    · left; rfl
  · left; exact foldl_foldJudgment_T tr js s

theorem runCalls_N (tr : ℕ → ℕ) :
    ∀ (calls : List (List (ℕ × ℤ) × List ℕ)) (s : ScalState),
      (runCalls tr calls s).N = s.N := by
  intro calls
  induction calls with
  | nil => intro s; rfl
  | cons c cs ih =>
    intro s
    show (runCalls tr cs (recordJudgmentBatch tr c.1 c.2 s)).N = s.N
    rw [ih, record_N]

theorem runCalls_T_pow (tr : ℕ → ℕ) :
    ∀ (calls : List (List (ℕ × ℤ) × List ℕ)) (s : ScalState),
      (∃ k : ℕ, s.T = 2 ^ k * s.N) →
      ∃ k : ℕ, (runCalls tr calls s).T = 2 ^ k * (runCalls tr calls s).N := by
  intro calls
  induction calls with
  | nil => intro s h; exact h
  | cons c cs ih =>
    intro s h
    show ∃ k, (List.foldl _ (recordJudgmentBatch tr c.1 c.2 s) cs).T = _
    apply ih
    obtain ⟨k, hk⟩ := h
    rcases record_T_or tr c.1 c.2 s with h' | h'
    · exact ⟨k, by rw [h', record_N, hk]⟩
    · exact ⟨k + 1, by rw [h', record_N, hk]; ring⟩

/-- C3: in every reachable state of the scalability controller, `T`
equals `2^k · N` for some `k ≥ 0` (initially `T = N`, `R = 0`); a refill
doubles `T` exactly when `R ≥ T` at entry to the refill (after folding
folding the judgments of the batch), and performs at most that one doubling. -/
theorem T_doubles_iff_R_reaches_T :
    (∀ (N B0 : ℕ) (q0 : List ℕ), (mkInit N B0 q0).T = N ∧ (mkInit N B0 q0).R = 0) ∧
    (∀ (s : ScalState) (batch : List ℕ),
        (refill s batch).T = if s.T ≤ s.R then 2 * s.T else s.T) ∧
    (∀ (tr : ℕ → ℕ) (calls : List (List (ℕ × ℤ) × List ℕ)) (N B0 : ℕ) (q0 : List ℕ),
        ∃ k : ℕ, (runCalls tr calls (mkInit N B0 q0)).T = 2 ^ k * N) := by
  refine ⟨fun N B0 q0 => ⟨rfl, rfl⟩, fun s batch => rfl, ?_⟩
  intro tr calls N B0 q0
  have h := runCalls_T_pow tr calls (mkInit N B0 q0) ⟨0, by simp [mkInit]⟩
  obtain ⟨k, hk⟩ := h
  have hN : (runCalls tr calls (mkInit N B0 q0)).N = N := runCalls_N tr calls (mkInit N B0 q0)
  exact ⟨k, by rw [hk, hN]⟩

/-- C8: the batch size `B` is updated exactly once per refill (and once
at construction) by `B ← B + ⌈B/10⌉`, hence is monotonically
nondecreasing across `record_judgment_batch` calls; from 100 three
refills yield 110, 121, 134. -/
theorem B_monotone_growth :
    (∀ (s : ScalState) (batch : List ℕ), (refill s batch).B = growB s.B) ∧
    (∀ (N B0 : ℕ) (q0 : List ℕ), (mkInit N B0 q0).B = growB B0) ∧
    (∀ (b : ℕ), b ≤ growB b) ∧
    (∀ (tr : ℕ → ℕ) (js : List (ℕ × ℤ)) (batch : List ℕ) (s : ScalState),
        s.B ≤ (recordJudgmentBatch tr js batch s).B) ∧
    (growB 100 = 110 ∧ growB 110 = 121 ∧ growB 121 = 134) := by
  refine ⟨fun s b => rfl, fun N B0 q0 => rfl, fun b => Nat.le_add_right b _, ?_, by decide⟩
  intro tr js batch s
  simp only [recordJudgmentBatch]
  split
  · have h1 := foldl_foldJudgment_B tr js s
    show s.B ≤ growB (js.foldl (foldJudgment tr) s).B
    rw [h1]
    exact Nat.le_add_right s.B _
  · rw [foldl_foldJudgment_B]

theorem foldJudgment_R_eq (tr : ℕ → ℕ) (s : ScalState) (j : ℕ × ℤ) :
    (foldJudgment tr s j).R =
      if (eraseLastMatch (fun pid => tr pid == j.1) s.judgment_queue).2 ∧ 0 < j.2
      then s.R + 1 else s.R := rfl

theorem fold_R_bounds (tr : ℕ → ℕ) :
    ∀ (js : List (ℕ × ℤ)) (s : ScalState),
      s.R ≤ (js.foldl (foldJudgment tr) s).R ∧
      (js.foldl (foldJudgment tr) s).R
        ≤ s.R + (js.filter (fun j => decide (0 < j.2))).length := by
  intro js
  induction js with
  | nil => intro s; simp
  | cons j js ih =>
    intro s
    simp only [List.foldl_cons, List.filter_cons]
    obtain ⟨ih1, ih2⟩ := ih (foldJudgment tr s j)
    have hstep := foldJudgment_R_eq tr s j
    by_cases hp : 0 < j.2
    · have hR' : (foldJudgment tr s j).R = s.R ∨ (foldJudgment tr s j).R = s.R + 1 := by
        rw [hstep]
        split
        · exact Or.inr rfl
        · exact Or.inl rfl
      rw [if_pos (by simpa using hp)]
      simp only [List.length_cons]
      rcases hR' with h | h <;> constructor <;> omega
    · have hR' : (foldJudgment tr s j).R = s.R := by
        rw [hstep, if_neg]
        intro hcon
        exact hp hcon.2
      rw [if_neg (by simpa using hp)]
      constructor <;> omega

/-- C1 (amended): `R` starts at 0, never changes during a refill, and a
folded judgment increments it by exactly 1 when and only when the
label of the judgment is positive and the tail-to-head scan removed a queued
paragraph (observable as the queue shrinking); consequently a
`record_judgment_batch` call grows `R` by at most the number of
positive-labelled judgments it received. -/
theorem R_counts_queue_removing_positives :
    (∀ (N B0 : ℕ) (q0 : List ℕ), (mkInit N B0 q0).R = 0) ∧
    (∀ (tr : ℕ → ℕ) (s : ScalState) (j : ℕ × ℤ),
        (foldJudgment tr s j).R =
          if (foldJudgment tr s j).judgment_queue.length < s.judgment_queue.length ∧ 0 < j.2
          then s.R + 1 else s.R) ∧
    (∀ (s : ScalState) (batch : List ℕ), (refill s batch).R = s.R) ∧
    (∀ (tr : ℕ → ℕ) (js : List (ℕ × ℤ)) (batch : List ℕ) (s : ScalState),
        s.R ≤ (recordJudgmentBatch tr js batch s).R ∧
        (recordJudgmentBatch tr js batch s).R
          ≤ s.R + (js.filter (fun j => decide (0 < j.2))).length) := by
  refine ⟨fun N B0 q0 => rfl, ?_, fun s batch => rfl, ?_⟩
  · intro tr s j
    have hq : (foldJudgment tr s j).judgment_queue
        = (eraseLastMatch (fun pid => tr pid == j.1) s.judgment_queue).1 := rfl
    rw [foldJudgment_R_eq, hq]
    have hiff : ((eraseLastMatch (fun pid => tr pid == j.1) s.judgment_queue).2 = true ∧ 0 < j.2)
        ↔ ((eraseLastMatch (fun pid => tr pid == j.1) s.judgment_queue).1.length
              < s.judgment_queue.length ∧ 0 < j.2) := by
      by_cases h2 : (eraseLastMatch (fun pid => tr pid == j.1) s.judgment_queue).2
      · have hlen := eraseLastMatch_found_length _ _ h2
        constructor
        · rintro ⟨_, hpos⟩; exact ⟨by omega, hpos⟩
        · rintro ⟨_, hpos⟩; exact ⟨h2, hpos⟩
      · simp only [Bool.not_eq_true] at h2
        have heq := eraseLastMatch_of_not_found _ _ h2
        rw [heq, h2]
        simp
    exact if_congr hiff rfl rfl
  · intro tr js batch s
    have hb := fold_R_bounds tr js s
    simp only [recordJudgmentBatch]
    split
    · have hrefill : (refill (js.foldl (foldJudgment tr) s) batch).R
          = (js.foldl (foldJudgment tr) s).R := rfl
      rw [hrefill]
      exact hb
    · exact hb

/-- C1 (counterexample to the original claim): a single `+1` judgment
whose document matches no queued paragraph is recorded in the labeled
cache but does not increment `R`, so `R` is 0 while one positive
judgment was received through `record_judgment_batch`. -/
theorem R_undercounts_positive_judgments :
    (recordJudgmentBatch (fun _ => 7) [(5, 1)] [] (mkInit 5 10 [0])).R = 0 ∧
    (recordJudgmentBatch (fun _ => 7) [(5, 1)] [] (mkInit 5 10 [0])).judgments 5 = some 1 ∧
    (List.filter (fun j => decide (0 < j.2)) [((5 : ℕ), (1 : ℤ))]).length = 1 := by
  refine ⟨by decide, by decide, by decide⟩

/-- C4: for each folded judgment the queue is scanned from the tail
(most recently appended) to the head and exactly the matching entry
with the highest index is removed — at most one entry per judgment, so
other queued paragraphs with the same parent document remain; in
scenario S3 (queue `[P1, P2, P3]` with `P1, P2 → D1`, `P3 → D2` and
judgment `(D1, +1)`) the queue becomes `[P1, P3]` and `R = 1`. -/
theorem queue_removal_tail_to_head :
    (∀ (p : ℕ → Bool) (l : List ℕ) (i : ℕ) (h : i < l.length),
        p (l.get ⟨i, h⟩) = true →
        (∀ (j : ℕ) (hj : j < l.length), i < j → p (l.get ⟨j, hj⟩) = false) →
        eraseLastMatch p l = (l.take i ++ l.drop (i + 1), true)) ∧
    (∀ (p : ℕ → Bool) (l : List ℕ), (eraseLastMatch p l).2 = true →
        (eraseLastMatch p l).1.length + 1 = l.length) ∧
    (∀ (p : ℕ → Bool) (l : List ℕ), (eraseLastMatch p l).2 = false →
        (eraseLastMatch p l).1 = l) ∧
    (∀ (tr : ℕ → ℕ) (s : ScalState) (j : ℕ × ℤ),
        (foldJudgment tr s j).judgment_queue
          = (eraseLastMatch (fun pid => tr pid == j.1) s.judgment_queue).1) ∧
    ((recordJudgmentBatch (fun p => if p ≤ 2 then 100 else 200) [(100, 1)] []
        (mkInit 10 5 [1, 2, 3])).judgment_queue = [1, 3] ∧
      (recordJudgmentBatch (fun p => if p ≤ 2 then 100 else 200) [(100, 1)] []
        (mkInit 10 5 [1, 2, 3])).R = 1) :=
  ⟨eraseLastMatch_at_last_index, eraseLastMatch_found_length, eraseLastMatch_of_not_found,
    fun _ _ _ => rfl, by decide, by decide⟩

/-- Witness for C4: the characterization applied to the S3 queue,
where index 1 holds the last paragraph with parent `D1`. -/
theorem queue_removal_tail_to_head_witness :
    eraseLastMatch (fun pid => pid == 2) [1, 2, 3] = ([1, 3], true) := by
  have h := queue_removal_tail_to_head.1 (fun pid => pid == 2) [1, 2, 3] 1 (by decide)
    (by decide) (by decide)
  simpa using h

theorem foldl_cacheInsert_mem (v : ℤ) :
    ∀ (L : List ℕ) (c : ℕ → Option ℤ) (b : ℕ), (b ∈ L ∨ c b = some v) →
      (L.foldl (fun c x => cacheInsert c x v) c) b = some v := by
  intro L
  induction L with
  | nil =>
    intro c b h
    rcases h with h | h
    · simp at h
    · exact h
  | cons x L ih =>
    intro c b h
    simp only [List.foldl_cons]
    apply ih
    by_cases hbx : b = x
    · right
      subst hbx
      simp [cacheInsert]
    · rcases h with h | h
      · rcases List.mem_cons.mp h with h' | h'
        · exact absurd h' hbx
        · exact Or.inl h'
      · right
        simpa [cacheInsert, hbx] using h

/-- C2: a refill triggered inside `record_judgment_batch` (the queue is
empty after folding all judgments) appends exactly
`min(|batch|, ⌈B·N/T⌉)` of the candidate batch to the judgment queue
(with `B` the batch size at entry to the refill and `T` its value after
the doubling check) and every remaining candidate receives label `−2`
in the labeled cache; the candidate batch argument is the
post-`std::shuffle` order, quantified over all orders.  With `N = 100`,
`T = 400`, `B = 80` and 80 candidates, exactly 20 are enqueued and 60
marked `−2`. -/
theorem refill_enqueues_exactly_min :
    (∀ (tr : ℕ → ℕ) (js : List (ℕ × ℤ)) (batch : List ℕ) (s : ScalState),
        (js.foldl (foldJudgment tr) s).judgment_queue = [] →
        recordJudgmentBatch tr js batch s = refill (js.foldl (foldJudgment tr) s) batch) ∧
    (∀ (s : ScalState) (batch : List ℕ), s.judgment_queue = [] →
        (refill s batch).judgment_queue.length
            = min batch.length (ceilDiv (s.B * s.N) (if s.T ≤ s.R then 2 * s.T else s.T)) ∧
        (refill s batch).judgment_queue
            = batch.take (ceilDiv (s.B * s.N) (if s.T ≤ s.R then 2 * s.T else s.T)) ∧
        ∀ b ∈ batch.drop (ceilDiv (s.B * s.N) (if s.T ≤ s.R then 2 * s.T else s.T)),
          (refill s batch).judgments b = some (-2)) ∧
    ((refill ⟨100, 400, 0, 80, 80, [], fun _ => none⟩
        (List.range 80)).judgment_queue.length = 20 ∧
      ((List.range 80).drop 20).length = 60 ∧
      ∀ b ∈ (List.range 80).drop 20,
        (refill ⟨100, 400, 0, 80, 80, [], fun _ => none⟩ (List.range 80)).judgments b
          = some (-2)) := by
  refine ⟨?_, ?_, by decide, by decide, by decide⟩
  · intro tr js batch s h
    simp only [recordJudgmentBatch]
    rw [if_pos h]
  · intro s batch hq
    have hqueue : (refill s batch).judgment_queue
        = batch.take (ceilDiv (s.B * s.N) (if s.T ≤ s.R then 2 * s.T else s.T)) := by
      show s.judgment_queue ++ _ = _
      rw [hq]
      exact List.nil_append _
    refine ⟨?_, hqueue, ?_⟩
    · rw [hqueue, List.length_take, Nat.min_comm]
    · intro b hb
      exact foldl_cacheInsert_mem (-2) _ s.judgments b (Or.inl hb)

/-- Witness for C2: the refill applied to the S5 state. -/
theorem refill_enqueues_exactly_min_witness :
    (refill ⟨100, 400, 0, 80, 80, [], fun _ => none⟩
      (List.range 80)).judgment_queue.length = 20 := by
  have h := (refill_enqueues_exactly_min.2.1
    ⟨100, 400, 0, 80, 80, [], fun _ => none⟩ (List.range 80) rfl).1
  simpa [ceilDiv] using h

theorem getD_replicate_zero : ∀ (k i : ℕ), (List.replicate k (0 : ℝ)).getD i 0 = 0 := by
  intro k
  induction k with
  | zero => intro i; simp
  | succ k ih =>
    intro i
    cases i with
    | zero => rfl
    | succ i => simp only [List.replicate_succ, List.getD_cons_succ]; exact ih i

theorem getD_append_replicate_zero :
    ∀ (w : List ℝ) (k i : ℕ), (w ++ List.replicate k 0).getD i 0 = w.getD i 0 := by
  intro w
  induction w with
  | nil => intro k i; simp only [List.nil_append, List.getD_nil]; exact getD_replicate_zero k i
  | cons x w ih =>
    intro k i
    cases i with
    | zero => rfl
    | succ i => simpa using ih k i

theorem getW_padTo (w : W) (n i : ℕ) : getW (padTo w n) i = getW w i :=
  getD_append_replicate_zero w _ i

theorem length_padTo (w : W) (n : ℕ) : n ≤ (padTo w n).length := by
  show n ≤ (w ++ List.replicate (n - w.length) 0).length
  rw [List.length_append, List.length_replicate]
  omega

theorem getD_set_self : ∀ (l : List ℝ) (i : ℕ) (v : ℝ), i < l.length →
    (l.set i v).getD i 0 = v := by
  intro l
  induction l with
  | nil => intro i v h; simp at h
  | cons x l ih =>
    intro i v h
    cases i with
    | zero => rfl
    | succ i => simpa using ih i v (by simpa using h)

theorem getD_set_ne : ∀ (l : List ℝ) (i j : ℕ) (v : ℝ), i ≠ j →
    (l.set i v).getD j 0 = l.getD j 0 := by
  intro l
  induction l with
  | nil => intro i j v _; simp
  | cons x l ih =>
    intro i j v h
    cases i with
    | zero =>
      cases j with
      | zero => exact absurd rfl h
      | succ j => rfl
    | succ i =>
      cases j with
      | zero => rfl
      | succ j => simpa using ih i j v (by omega)

theorem getW_setW_self (w : W) (i : ℕ) (v : ℝ) : getW (setW w i v) i = v := by
  show (List.set _ _ _).getD i 0 = v
  exact getD_set_self _ i v (Nat.lt_of_lt_of_le (Nat.lt_succ_self i) (length_padTo w (i + 1)))

theorem getW_setW_ne (w : W) (i j : ℕ) (v : ℝ) (h : i ≠ j) :
    getW (setW w i v) j = getW w j := by
  show (List.set _ _ _).getD j 0 = _
  rw [getD_set_ne _ i j v h]
  exact getW_padTo w (i + 1) j

theorem getW_addFeatures :
    ∀ (fs : List (ℕ × ℝ)) (w : W) (c : ℝ) (i : ℕ), (fs.map Prod.fst).Nodup →
      getW (addFeatures w fs c) i
        = getW w i + c * (Option.map Prod.snd (fs.find? (fun p => p.1 == i))).getD 0 := by
  intro fs
  induction fs with
  | nil => intro w c i _; simp [addFeatures]
  | cons f t ih =>
    intro w c i hnd
    rw [List.map_cons, List.nodup_cons] at hnd
    have hstep : addFeatures w (f :: t) c
        = addFeatures (setW w f.1 (getW w f.1 + c * f.2)) t c := rfl
    rw [hstep, ih _ c i hnd.2]
    by_cases hfi : f.1 = i
    · subst hfi
      have hfind_t : t.find? (fun p => p.1 == f.1) = none := by
        rw [List.find?_eq_none]
        intro p hp hbeq
        exact hnd.1 (List.mem_map.mpr ⟨p, hp, by simpa using hbeq⟩)
      have hfind_head : ((f :: t).find? (fun p => p.1 == f.1)) = some f :=
        List.find?_cons_of_pos _ (by simp)
      rw [hfind_t, hfind_head, getW_setW_self]
      simp
    · have hfind : ((f :: t).find? (fun p => p.1 == i)) = t.find? (fun p => p.1 == i) :=
        List.find?_cons_of_neg _ (by simp [hfi])
      rw [hfind, getW_setW_ne _ _ _ _ hfi]

theorem getW_addVector (w : W) (x : SfSparseVector) (c : ℝ) (i : ℕ)
    (hx : (x.features.map Prod.fst).Nodup) :
    getW (addVector w x c) i = getW w i + c * valAt x i :=
  getW_addFeatures x.features w c i hx

/-- C5 (amended): `SingleMarginPerceptronRankStep` does use
`y = sign(y_a − y_b)` in its trigger condition `y·(w·(a−b)) ≤ c`, but
the update adds the coefficient `η` to the features of `a` and `−η` to
those of `b` — not `η·y` and `−η·y` — and in particular it still updates when
`y = 0` whenever `0 ≤ c`; no update happens when the condition fails. -/
theorem margin_perceptron_rank_adds_eta (a b : SfSparseVector) (eta c : ℝ) (w : W) :
    (¬ pairY a b * innerProductOnDifference w a b ≤ c →
      SingleMarginPerceptronRankStep a b eta c w = (false, w)) ∧
    ((a.features.map Prod.fst).Nodup → (b.features.map Prod.fst).Nodup →
      pairY a b * innerProductOnDifference w a b ≤ c →
      (SingleMarginPerceptronRankStep a b eta c w).1 = true ∧
      ∀ i, getW (SingleMarginPerceptronRankStep a b eta c w).2 i
          = getW w i + eta * valAt a i - eta * valAt b i) := by
  constructor
  · intro h
    simp only [SingleMarginPerceptronRankStep]
    rw [if_neg h]
  · intro ha hb h
    have hstep : SingleMarginPerceptronRankStep a b eta c w
        = (true, addVector (addVector w a eta) b (-1 * eta)) := by
      simp only [SingleMarginPerceptronRankStep]
      rw [if_pos h]
    rw [hstep]
    refine ⟨rfl, ?_⟩
    intro i
    show getW (addVector (addVector w a eta) b (-1 * eta)) i = _
    rw [getW_addVector _ b (-1 * eta) i hb, getW_addVector _ a eta i ha]
    ring

/-- C5 (counterexample to the original claim): with `a.y = −1`,
`b.y = +1` (so `y = −1`), `η = 1`, `c = 0` and `w = 0`, the condition
fires and the code produces weight `+1` at the feature of `a`, whereas the
claimed update `w += η·y·(a−b)` would produce `−1` there. -/
theorem margin_perceptron_rank_counterexample :
    pairY ⟨[(0, 1)], -1⟩ ⟨[(1, 1)], 1⟩ = -1 ∧
    (SingleMarginPerceptronRankStep ⟨[(0, 1)], -1⟩ ⟨[(1, 1)], 1⟩ 1 0 []).1 = true ∧
    getW (SingleMarginPerceptronRankStep ⟨[(0, 1)], -1⟩ ⟨[(1, 1)], 1⟩ 1 0 []).2 0 = 1 ∧
    getW (addVector (addVector [] ⟨[(0, 1)], -1⟩ (1 * (-1))) ⟨[(1, 1)], 1⟩ (-(1 * (-1)))) 0
      = -1 ∧
    (1 : ℝ) ≠ -1 := by
  have hy : pairY ⟨[(0, 1)], -1⟩ ⟨[(1, 1)], 1⟩ = -1 := by
    simp only [pairY]
    norm_num
  have hipd : innerProductOnDifference [] ⟨[(0, 1)], -1⟩ ⟨[(1, 1)], 1⟩ = 0 := by
    simp [innerProductOnDifference, innerProduct, getW]
  have hstep : SingleMarginPerceptronRankStep ⟨[(0, 1)], -1⟩ ⟨[(1, 1)], 1⟩ 1 0 []
      = (true, addVector (addVector [] ⟨[(0, 1)], -1⟩ 1) ⟨[(1, 1)], 1⟩ (-1 * 1)) := by
    simp only [SingleMarginPerceptronRankStep]
    rw [if_pos (by rw [hy, hipd]; norm_num)]
  refine ⟨hy, by rw [hstep], ?_, ?_, by norm_num⟩
  · rw [hstep]
    show getW (addVector (addVector [] ⟨[(0, 1)], -1⟩ 1) ⟨[(1, 1)], 1⟩ (-1 * 1)) 0 = 1
    rw [getW_addVector _ _ _ _ (by simp), getW_addVector _ _ _ _ (by simp)]
    simp [valAt, getW]
  · rw [getW_addVector _ _ _ _ (by simp), getW_addVector _ _ _ _ (by simp)]
    simp [valAt, getW]

/-- Witness for C5: the amended theorem applied at `a.y = 1`,
`b.y = −1`, `η = 1`, `c = 0`, `w = 0`. -/
theorem margin_perceptron_rank_adds_eta_witness :
    (SingleMarginPerceptronRankStep ⟨[(0, 1)], 1⟩ ⟨[(1, 1)], -1⟩ 1 0 []).1 = true ∧
    getW (SingleMarginPerceptronRankStep ⟨[(0, 1)], 1⟩ ⟨[(1, 1)], -1⟩ 1 0 []).2 0
      = getW [] 0 + 1 * valAt ⟨[(0, 1)], 1⟩ 0 - 1 * valAt ⟨[(1, 1)], -1⟩ 0 := by
  have h := (margin_perceptron_rank_adds_eta ⟨[(0, 1)], 1⟩ ⟨[(1, 1)], -1⟩ 1 0 []).2
    (by simp) (by simp)
    (by simp [pairY, innerProductOnDifference, innerProduct, getW])
  exact ⟨h.1, h.2 0⟩

/-- C6 (evaluation at the failing input): with `x = (e₀, y = +1)`,
`w = [2]`, `λ = 0`, `max_step = 1`, the loss `p = 1 − y·(w·x) = −1` is
negative — the hinge loss is zero and no step is taken — yet
`SinglePassiveAggressiveStep` returns `true`, because line 437 of
sofia-ml-methods.cc returns `p < 1 ∧ y ≠ 0` instead of the nonzero-loss
signal `p > 0 ∧ y ≠ 0` that its own rank-step sibling (line 478)
returns. -/
theorem passive_aggressive_returns_true_on_zero_loss :
    (1 - (⟨[(0, 1)], 1⟩ : SfSparseVector).y * innerProduct [2] ⟨[(0, 1)], 1⟩ < 0) ∧
    SinglePassiveAggressiveStep ⟨[(0, 1)], 1⟩ 0 1 [2] = (true, [2]) := by
  have hip : innerProduct [2] (⟨[(0, 1)], 1⟩ : SfSparseVector) = 2 := by
    simp [innerProduct, getW]
  constructor
  · rw [hip]
    norm_num
  · simp only [SinglePassiveAggressiveStep, hip]
    rw [if_neg (by norm_num), if_neg (by norm_num)]
    rw [Prod.mk.injEq]
    constructor
    · rw [decide_eq_true_eq]
      norm_num
    · rfl

/-- C7: `L2Regularize` computes `α = 1 − η·λ` and scales by `α` when
`α > MIN_SCALING_FACTOR`, else by the floor; `L2RegularizeSeveralSteps`
compares `α^k` against the floor but, when above it, still issues a
single scale-by of `α` rather than `α^k` (demonstrated at
`α = 1/2`, `k = 2`, where a scale by `α²` would give `1/4`). -/
theorem l2_regularize_single_alpha :
    (∀ (eta lambda : ℝ) (w : W),
        (1 - eta * lambda > MIN_SCALING_FACTOR →
          L2Regularize eta lambda w = scaleBy (1 - eta * lambda) w) ∧
        (¬ 1 - eta * lambda > MIN_SCALING_FACTOR →
          L2Regularize eta lambda w = scaleBy MIN_SCALING_FACTOR w)) ∧
    (∀ (eta lambda : ℝ) (k : ℕ) (w : W),
        ((1 - eta * lambda) ^ k > MIN_SCALING_FACTOR →
          L2RegularizeSeveralSteps eta lambda k w = scaleBy (1 - eta * lambda) w) ∧
        (¬ (1 - eta * lambda) ^ k > MIN_SCALING_FACTOR →
          L2RegularizeSeveralSteps eta lambda k w = scaleBy MIN_SCALING_FACTOR w)) ∧
    (L2RegularizeSeveralSteps 1 (1 / 2) 2 [1] = [(1 : ℝ) / 2] ∧
      scaleBy ((1 - 1 * (1 / 2)) ^ 2) [1] = [(1 : ℝ) / 4] ∧
      ((1 : ℝ) / 2) ≠ 1 / 4) := by
  refine ⟨?_, ?_, ?_, ?_, by norm_num⟩
  · intro eta lambda w
    constructor
    · intro h
      simp only [L2Regularize]
      rw [if_pos h]
    · intro h
      simp only [L2Regularize]
      rw [if_neg h]
  · intro eta lambda k w
    constructor
    · intro h
      simp only [L2RegularizeSeveralSteps]
      rw [if_pos h]
    · intro h
      simp only [L2RegularizeSeveralSteps]
      rw [if_neg h]
  · simp only [L2RegularizeSeveralSteps]
    rw [if_pos (by norm_num [MIN_SCALING_FACTOR])]
    simp [scaleBy]
    norm_num
  · simp [scaleBy]
    norm_num

/-- Witness for C7: the several-steps variant at `η = 1`, `λ = 1/2`,
`k = 2` issues a single scale-by of `α = 1/2`. -/
theorem l2_regularize_single_alpha_witness :
    L2RegularizeSeveralSteps 1 (1 / 2) 2 [(1 : ℝ)] = scaleBy (1 - 1 * (1 / 2)) [(1 : ℝ)] :=
  (l2_regularize_single_alpha.2.1 1 (1 / 2) 2 [(1 : ℝ)]).1 (by norm_num [MIN_SCALING_FACTOR])

/-- C9: `GetEta` with an eta-type outside the three supported codes, and
`OneLearnerStep` / `OneLearnerRankStep` with a learner-type outside the
eight supported families, all dispatch to the abort branch (`exit(0)`,
modelled as `Except.error`) without invoking any step function, so no
updated weight vector is ever produced. -/
theorem unknown_learner_or_eta_aborts :
    (∀ (eta_type : ℤ) (lambda : ℝ) (i : ℕ),
        eta_type ≠ 0 → eta_type ≠ 1 → eta_type ≠ 2 →
        GetEta eta_type lambda i = Except.error ()) ∧
    (∀ (learner_type : ℤ) (x : SfSparseVector) (eta c lambda : ℝ) (w : W),
        learner_type ≠ 0 → learner_type ≠ 1 → learner_type ≠ 2 → learner_type ≠ 3 →
        learner_type ≠ 4 → learner_type ≠ 5 → learner_type ≠ 6 → learner_type ≠ 7 →
        OneLearnerStep learner_type x eta c lambda w = Except.error ()) ∧
    (∀ (learner_type : ℤ) (a b : SfSparseVector) (eta c lambda : ℝ) (w : W)
        (y_a y_b : Option ℝ),
        learner_type ≠ 0 → learner_type ≠ 1 → learner_type ≠ 2 → learner_type ≠ 3 →
        learner_type ≠ 4 → learner_type ≠ 5 → learner_type ≠ 6 → learner_type ≠ 7 →
        OneLearnerRankStep learner_type a b eta c lambda w y_a y_b = Except.error ()) := by
  refine ⟨?_, ?_, ?_⟩
  · intro t lambda i h0 h1 h2
    simp only [GetEta]
    rw [if_neg h0, if_neg h1, if_neg h2]
  · intro t x eta c lambda w h0 h1 h2 h3 h4 h5 h6 h7
    simp only [OneLearnerStep]
    rw [if_neg h0, if_neg h1, if_neg h2, if_neg h3, if_neg h4, if_neg h5, if_neg h6, if_neg h7]
  · intro t a b eta c lambda w ya yb h0 h1 h2 h3 h4 h5 h6 h7
    simp only [OneLearnerRankStep]
    rw [if_neg h0, if_neg h1, if_neg h2, if_neg h3, if_neg h4, if_neg h5, if_neg h6, if_neg h7]

/-- Witness for C9: an unknown eta-type code 3 and an unknown
learner-type code 9 both abort. -/
theorem unknown_learner_or_eta_aborts_witness :
    GetEta 3 1 1 = Except.error () ∧
    OneLearnerStep 9 dummyVec 1 1 1 [] = Except.error () ∧
    OneLearnerRankStep 9 dummyVec dummyVec 1 1 1 [] none none = Except.error () :=
  ⟨unknown_learner_or_eta_aborts.1 3 1 1 (by decide) (by decide) (by decide),
    unknown_learner_or_eta_aborts.2.1 9 dummyVec 1 1 1 [] (by decide) (by decide) (by decide)
      (by decide) (by decide) (by decide) (by decide) (by decide),
    unknown_learner_or_eta_aborts.2.2 9 dummyVec dummyVec 1 1 1 [] none none (by decide)
      (by decide) (by decide) (by decide) (by decide) (by decide) (by decide) (by decide)⟩

/-- C10: both bucketing loops place index `i` in the positives bucket
iff `GetY() > 0`, and every other example — including unlabeled ones
with `y = 0` — lands in the negatives bucket; a one-iteration run of
`BalancedStochasticOuterLoop` (margin perceptron, constant eta) over
`D = [(e₀, y=1), (e₁, y=0)]` steps on the `y = 0` example as the
per-step negative, observable in the result growing to cover the
coordinate of `e₁`. -/
theorem label_bucketing_y_le_zero_negative :
    (∀ (D : List SfSparseVector) (i : ℕ),
        i ∈ positivesOf D ↔ i < D.length ∧ 0 < (D.getD i dummyVec).y) ∧
    (∀ (D : List SfSparseVector) (i : ℕ),
        i ∈ negativesOf D ↔ i < D.length ∧ ¬ 0 < (D.getD i dummyVec).y) ∧
    BalancedStochasticOuterLoop 1 2 0 0 1 [⟨[(0, 1)], 1⟩, ⟨[(1, 1)], 0⟩]
        (fun _ => 0) (fun _ => 0) [] = Except.ok [0.02, 0] := by
  refine ⟨?_, ?_, ?_⟩
  · intro D i
    simp [positivesOf, List.mem_filter, List.mem_range]
  · intro D i
    simp [negativesOf, List.mem_filter, List.mem_range]
  · have hpos : positivesOf [(⟨[(0, 1)], 1⟩ : SfSparseVector), ⟨[(1, 1)], 0⟩] = [0] := by
      simp [positivesOf, List.range_succ, dummyVec]
    have hneg : negativesOf [(⟨[(0, 1)], 1⟩ : SfSparseVector), ⟨[(1, 1)], 0⟩] = [1] := by
      simp [negativesOf, List.range_succ, dummyVec]
    simp only [BalancedStochasticOuterLoop, hpos, hneg]
    norm_num [BalancedStochasticOuterLoop, hpos, hneg, List.foldlM, List.range_succ,
      GetEta, OneLearnerStep, SingleMarginPerceptronStep, innerProduct, getW, addVector,
      addFeatures, setW, padTo, dummyVec, List.getD, Except.bind, bind, pure, Except.pure]
    rfl
